import Mathlib

/-!
Verification development for the prolly-tree storage engine.

The repository ships the engine behind Python bindings; the sources available
here are the Python test-suite and examples, which pin the API surface and the
behaviour exercised by the tests.  The engine itself (chunker, tree builder,
versioned store, merge engine, worktree manager) is not among the sources, so
every definition below that embeds engine behaviour is modelled from the
specification (spec.md), faithful to its words, and cross-checked against the
Python tests.

Keys and values are opaque byte sequences (spec section 3); bytes are modelled
as naturals and byte strings as lists of naturals, ordered lexicographically.
Content addressing is modelled with an ideal digest: the spec treats a node
hash as a deterministic injective digest of the node's serialized content
(hash equality is content equality), so the model uses the node's content
itself as its digest value.
-/

abbrev Key := List Nat
abbrev Value := List Nat

/-- Modelled from the spec: an Entry is a `(key, value)` pair (section 3). -/
abbrev Entry := Key × Value

/-- Association-list lookup on key/value lists. -/
def lookupKV (k : Key) : List Entry → Option Value
  | [] => none
  | (k', v) :: rest => if k = k' then some v else lookupKV k rest

/-- Insert a pair into a key-sorted entry list, replacing any pair with the
same key.  This is the canonical-form counterpart of the tree's
insert-or-update operation: keys are unique within a snapshot (section 3). -/
def sortedInsert (k : Key) (v : Value) : List Entry → List Entry
  | [] => [(k, v)]
  | (k', v') :: rest =>
    if k < k' then (k, v) :: (k', v') :: rest
    else if k' < k then (k', v') :: sortedInsert k v rest
    else (k, v) :: rest

/-- Remove the pairs with the given key from an entry list. -/
def removeKey (k : Key) : List Entry → List Entry
  | [] => []
  | (k', v) :: rest => if k = k' then removeKey k rest else (k', v) :: removeKey k rest

/-- Association-list lookup for branch tables and staging areas. -/
def assocLookup {α β : Type} [DecidableEq α] (k : α) : List (α × β) → Option β
  | [] => none
  | (k', v) :: rest => if k = k' then some v else assocLookup k rest

/-- Replace the binding of a key in an association list, appending when the
key is absent. -/
def assocSet {α β : Type} [DecidableEq α] (k : α) (v : β) : List (α × β) → List (α × β)
  | [] => [(k, v)]
  | (k', v') :: rest => if k = k' then (k, v) :: rest else (k', v') :: assocSet k v rest

/-- Insert a key into a sorted duplicate-free key list. -/
def insertKeySorted (k : Key) : List Key → List Key
  | [] => [k]
  | k' :: rest =>
    if k < k' then k :: k' :: rest
    else if k' < k then k' :: insertKeySorted k rest
    else k' :: rest

/-- Sorted duplicate-free list of all keys occurring in any of the given
key lists. -/
def keyUnion (ls : List (List Key)) : List Key :=
  ls.flatten.foldl (fun acc k => insertKeySorted k acc) []

/-- Modelled from the spec: chunking parameters `base`, `modulus`, `pattern`,
`min_chunk_size`, `max_chunk_size` (section 3, and `TreeConfig` in the Python
API). -/
structure TreeConfig where
  base : Nat
  modulus : Nat
  minChunkSize : Nat
  maxChunkSize : Nat
  pattern : Nat
deriving DecidableEq, Repr

/-- One step of the rolling hash: fold the next datum into the accumulator
(section 4.1: a pure function of a rolling hash, `base` and `modulus`). -/
def rollStep (cfg : TreeConfig) (acc d : Nat) : Nat :=
  (acc * cfg.base + d) % cfg.modulus

/-- Modelled from the spec: the content-defined boundary predicate, a pure
function of the rolling hash clamped by `min_chunk_size`/`max_chunk_size`
(section 4.1). -/
def isBoundary (cfg : TreeConfig) (len h : Nat) : Bool :=
  (decide (cfg.minChunkSize ≤ len) && decide (h = cfg.pattern % cfg.modulus))
    || decide (cfg.maxChunkSize ≤ len)

/-- Worker for content-defined chunking: `cur` is the current chunk
(reversed), `h` the rolling hash over it. -/
def chunkGo {α : Type} (cfg : TreeConfig) (digest : α → Nat) (cur : List α) (h : Nat) :
    List α → List (List α)
  | [] => if cur.isEmpty then [] else [cur.reverse]
  | e :: rest =>
    let h' := rollStep cfg h (digest e)
    let cur' := e :: cur
    if isBoundary cfg cur'.length h' then
      cur'.reverse :: chunkGo cfg digest [] 0 rest
    else
      chunkGo cfg digest cur' h' rest

/-- Modelled from the spec: split an ordered sequence into variable-size
chunks using a rolling content-defined boundary function (section 2,
section 4.1).  The boundary decision is a pure function of the rolling hash
of the content seen so far, so identical sequences always produce identical
chunk boundaries (section 3 invariant). -/
def chunkSeq {α : Type} (cfg : TreeConfig) (digest : α → Nat) (l : List α) :
    List (List α) :=
  chunkGo cfg digest [] 0 l

/-- Modelled from the spec: a node is either a leaf owning a chunk of entries
or an internal node owning an ordered list of children; with ideal content
addressing a child reference and the child's digest are identified
(section 3). -/
inductive Node where
  | leaf (entries : List Entry)
  | internal (children : List Node)

/-- Rolling-hash datum of one entry: fold the key and value bytes. -/
def entryDigest (cfg : TreeConfig) (e : Entry) : Nat :=
  (e.1 ++ e.2).foldl (rollStep cfg) 0

mutual
/-- Numeric rolling-hash datum of a node, used by the chunker when grouping
nodes of one level into parents. -/
def nodeDigest (cfg : TreeConfig) : Node → Nat
  | .leaf es => es.foldl (fun a e => rollStep cfg a (entryDigest cfg e)) 1
  | .internal cs => nodeListDigest cfg cs
termination_by structural t => t

/-- Rolling-hash datum of a child list. -/
def nodeListDigest (cfg : TreeConfig) : List Node → Nat
  | [] => 2
  | c :: rest => rollStep cfg (nodeListDigest cfg rest) (nodeDigest cfg c)
termination_by structural l => l
end

mutual
/-- All entries stored beneath a node, left to right. -/
def entriesNode : Node → List Entry
  | .leaf es => es
  | .internal cs => entriesList cs
termination_by structural t => t

/-- All entries stored beneath a list of nodes, left to right. -/
def entriesList : List Node → List Entry
  | [] => []
  | c :: rest => entriesNode c ++ entriesList rest
termination_by structural l => l
end

/-- Keys stored beneath a node. -/
def keysNode (t : Node) : List Key := (entriesNode t).map Prod.fst

mutual
/-- Boolean structural equality of nodes; with ideal content addressing this
is exactly equality of the nodes' digests. -/
def nodeBeq : Node → Node → Bool
  | .leaf es, .leaf es' => es = es'
  | .internal cs, .internal cs' => nodeListBeq cs cs'
  | _, _ => false
termination_by structural t => t

/-- Boolean equality of node lists. -/
def nodeListBeq : List Node → List Node → Bool
  | [], [] => true
  | c :: r, c' :: r' => nodeBeq c c' && nodeListBeq r r'
  | _, _ => false
termination_by structural l => l
end

/-- Build one internal level: chunk the nodes of the previous level by the
rolling hash of their digests and wrap each chunk in an internal node
(section 2: Node/Tree builder). -/
def buildLevel (cfg : TreeConfig) (ns : List Node) : List Node :=
  (chunkSeq cfg (nodeDigest cfg) ns).map .internal

/-- Collapse levels until a single root remains.  The fuel bounds the number
of levels; when it runs out the remaining nodes are wrapped in one root. -/
def buildLevels (cfg : TreeConfig) : Nat → List Node → Node
  | _, [] => .leaf []
  | _, [n] => n
  | 0, ns => .internal ns
  | fuel + 1, ns => buildLevels cfg fuel (buildLevel cfg ns)

/-- Modelled from the spec: assemble the canonical entry sequence into a
multi-level tree; a tree with zero entries has a defined empty root
(section 4.1).  The tree is a deterministic function of the entry sequence
and the chunking configuration. -/
def buildTree (cfg : TreeConfig) (entries : List Entry) : Node :=
  buildLevels cfg entries.length ((chunkSeq cfg (entryDigest cfg) entries).map .leaf)

/-- Modelled from the spec: the public Prolly Tree keeps a snapshot of
key/value content; the canonical form is the key-sorted duplicate-free entry
list, which insert/update/delete maintain (sections 3 and 4.2). -/
structure ProllyTree where
  config : TreeConfig
  entries : List Entry

namespace ProllyTree

/-- Fresh empty tree with the given chunking configuration. -/
def empty (cfg : TreeConfig) : ProllyTree := ⟨cfg, []⟩

/-- Modelled from the spec: `insert(key, value)` stores the pair; keys are
unique within a snapshot, so inserting an existing key replaces its value. -/
def insert (t : ProllyTree) (k : Key) (v : Value) : ProllyTree :=
  { t with entries := sortedInsert k v t.entries }

/-- Modelled from the spec: `find(key) -> value?` (section 4.2). -/
def find (t : ProllyTree) (k : Key) : Option Value :=
  lookupKV k t.entries

/-- Modelled from the spec: `delete(key)` removes the pair (section 4.2). -/
def delete (t : ProllyTree) (k : Key) : ProllyTree :=
  { t with entries := removeKey k t.entries }

/-- Number of stored entries. -/
def size (t : ProllyTree) : Nat := t.entries.length

/-- Modelled from the spec: `get_root_hash()` is a Merkle commitment to the
entire map; the digest is ideal, so the root hash is modelled by the root
node's content itself (sections 2 and 3). -/
def get_root_hash (t : ProllyTree) : Node :=
  buildTree t.config t.entries

/-- Insert a list of pairs left to right (an edit sequence made of
`insert` calls). -/
def insertList (t : ProllyTree) (l : List Entry) : ProllyTree :=
  l.foldl (fun t e => t.insert e.1 e.2) t

end ProllyTree

/-! ## Merkle inclusion proofs (spec section 4.2: proof semantics) -/

/-- One level of a Merkle proof: the siblings to the left and to the right of
the node on the path (the spec's ordered sibling hashes; with the ideal
digest a sibling hash is the sibling's content). -/
structure ProofStep where
  before : List Node
  after : List Node

/-- Modelled from the spec: a proof is the ordered list of sibling hashes
along the path between a leaf and the root, together with the entries that
share the leaf with the claimed key (section 4.2).  Steps are listed from the
root towards the leaf. -/
structure MerkleProof where
  leafBefore : List Entry
  leafAfter : List Entry
  steps : List ProofStep

/-- Split an entry list at the first occurrence of the key, returning the
entries before, the stored value, and the entries after. -/
def splitAtKey (k : Key) : List Entry → Option (List Entry × Value × List Entry)
  | [] => none
  | (k', v) :: rest =>
    if k = k' then some ([], v, rest)
    else (splitAtKey k rest).map fun (b, v0, a) => ((k', v) :: b, v0, a)

mutual
/-- Modelled from the spec: `generate_proof(key)` walks from the root to the
leaf holding the key, recording the siblings at each level; it fails when the
key is absent (section 4.2). -/
def genProofNode : Node → Key → Option MerkleProof
  | .leaf es, k =>
    match splitAtKey k es with
    | some (b, _, a) => some ⟨b, a, []⟩
    | none => none
  | .internal cs, k => genProofChildren [] cs k
termination_by structural t _ => t

/-- Walk the children of an internal node looking for the key; `before`
accumulates (reversed) the siblings already passed. -/
def genProofChildren : List Node → List Node → Key → Option MerkleProof
  | _, [], _ => none
  | before, c :: rest, k =>
    match genProofNode c k with
    | some p => some { p with steps := ⟨before.reverse, rest⟩ :: p.steps }
    | none => genProofChildren (c :: before) rest k
termination_by structural _ l _ => l
end

/-- Rewrap a node in the recorded sibling layers, innermost last. -/
def rebuildSteps : List ProofStep → Node → Node
  | [], c => c
  | s :: rest, c => .internal (s.before ++ rebuildSteps rest c :: s.after)

/-- Modelled from the spec: verification recomputes the root hash from the
claimed `(key, value)` and the sibling hashes (section 4.2). -/
def reconstructRoot (k : Key) (v : Value) (p : MerkleProof) : Node :=
  rebuildSteps p.steps (.leaf (p.leafBefore ++ (k, v) :: p.leafAfter))

namespace ProllyTree

/-- Modelled from the spec: `generate_proof(key) -> Proof`; fails with
`KeyNotFound` (here: `none`) if the key is absent (section 4.2). -/
def generate_proof (t : ProllyTree) (k : Key) : Option MerkleProof :=
  genProofNode t.get_root_hash k

/-- Modelled from the spec: `verify_proof(proof, key, value) -> bool`
recomputes the root from the claimed pair and the sibling hashes and compares
it against the tree's committed root hash (section 4.2). -/
def verify_proof (t : ProllyTree) (p : MerkleProof) (k : Key) (v : Value) : Bool :=
  nodeBeq (reconstructRoot k v p) t.get_root_hash

end ProllyTree

/-! ## Entry-level diff (spec sections 4.2 and 4.3) -/

/-- Modelled from the spec: a diff entry's operation,
`Added`, `Removed` or `Modified`, with the old/new values (section 3). -/
inductive DiffOp where
  | added (newValue : Value)
  | removed (oldValue : Value)
  | modified (oldValue newValue : Value)
deriving DecidableEq, Repr

/-- Classification of one key between an old and a new snapshot. -/
def classifyKey (a b : List Entry) (k : Key) : Option DiffOp :=
  match lookupKV k a, lookupKV k b with
  | some va, none => some (.removed va)
  | none, some vb => some (.added vb)
  | some va, some vb => if va = vb then none else some (.modified va vb)
  | none, none => none

/-- Modelled from the spec: the entry-level difference between two snapshots,
classifying each differing key as Added/Removed/Modified (sections 4.2
and 4.3).  Keys are visited in sorted order. -/
def entryDiff (a b : List Entry) : List (Key × DiffOp) :=
  (keyUnion [a.map Prod.fst, b.map Prod.fst]).filterMap fun k =>
    (classifyKey a b k).map ((k, ·))

/-- Swap the direction of one diff operation (Added with Removed, and the
old/new values of Modified). -/
def invertOp : DiffOp → DiffOp
  | .added v => .removed v
  | .removed v => .added v
  | .modified o n => .modified n o

/-- Modelled from the spec: `diff(other_tree)` must report every key whose
presence or value differs between the two trees, classified Added, Removed or
Modified, whatever edit sequences built the trees (section 4.2, section 8). -/
def ProllyTree.diff (t1 t2 : ProllyTree) : List (Key × DiffOp) :=
  entryDiff t1.entries t2.entries

/-! ## Versioned key-value store (spec section 4.3) -/

/-- Modelled from the spec: a commit records its parent commit id(s), the
snapshot it points at, and metadata; merge commits have two parents
(section 3).  Commit ids are modelled as creation indices: the spec derives
the id from a hash of snapshot plus timestamped metadata, so every commit
gets a fresh id and ids grow with creation time. -/
structure CommitObj where
  parents : List Nat
  snapshot : List Entry
  message : String
deriving DecidableEq, Repr

/-- Modelled from the spec: the versioned store keeps the append-only commit
list, the branch-name to commit-id pointers, the checked-out branch, and the
staging area of buffered insert/update/delete operations (section 4.3).
A staged `some v` is a buffered insert/update, a staged `none` a buffered
delete. -/
structure Store where
  commits : List CommitObj
  branches : List (String × Nat)
  current : String
  staging : List (Key × Option Value)
deriving DecidableEq, Repr

/-- Modelled from the spec: a fresh store has one implicit empty root commit
that the `main` branch points at. -/
def Store.init : Store :=
  ⟨[⟨[], [], "init"⟩], [("main", 0)], "main", []⟩

namespace Store

/-- Commit id the active branch points at (`current_commit()`). -/
def headId (s : Store) : Nat := (assocLookup s.current s.branches).getD 0

/-- Snapshot recorded by the given commit id. -/
def snapshotOf (s : Store) (id : Nat) : List Entry :=
  (s.commits.getD id ⟨[], [], ""⟩).snapshot

/-- Snapshot of the active branch's tip. -/
def headSnapshot (s : Store) : List Entry := s.snapshotOf s.headId

/-- Modelled from the spec: `find(key) -> bytes?` reads through the staging
area over the committed snapshot; an absent key yields `none`, not an error
(sections 4.3 and 6). -/
def get (s : Store) (k : Key) : Option Value :=
  match assocLookup k s.staging with
  | some (some v) => some v
  | some none => none
  | none => lookupKV k s.headSnapshot

/-- Modelled from the spec: `insert(key, value)` buffers the pair in the
staging area (section 4.3). -/
def insert (s : Store) (k : Key) (v : Value) : Store :=
  { s with staging := assocSet k (some v) s.staging }

/-- Modelled from the spec and the Python bindings: `update(key, value)`
reports its outcome as a boolean; it stages the new value when the key is
present and reports `false`, changing nothing, when it is absent. -/
def update (s : Store) (k : Key) (v : Value) : Bool × Store :=
  if (s.get k).isSome then (true, s.insert k v) else (false, s)

/-- Modelled from the spec and the Python bindings: `delete(key)` reports its
outcome as a boolean; it stages a deletion when the key is present and
reports `false`, changing nothing, when it is absent. -/
def delete (s : Store) (k : Key) : Bool × Store :=
  if (s.get k).isSome then (true, { s with staging := assocSet k none s.staging })
  else (false, s)

/-- Modelled from the spec: `status()` reports the staged, uncommitted keys
and their operation kind (section 4.3). -/
def status (s : Store) : List (Key × Option Value) := s.staging

/-- Apply the staged operations to a snapshot. -/
def applyStaging (st : List (Key × Option Value)) (snap : List Entry) : List Entry :=
  st.foldl
    (fun acc ko =>
      match ko.2 with
      | some v => sortedInsert ko.1 v acc
      | none => removeKey ko.1 acc)
    snap

/-- Modelled from the spec: `commit(message)` turns the staged changes into a
new immutable commit, advances the branch pointer and empties the staging
area; with no staged changes it fails with `NothingToCommit` (here: `none`)
(section 4.3). -/
def commit (s : Store) (msg : String) : Option (Nat × Store) :=
  if s.staging.isEmpty then none
  else
    let id := s.commits.length
    let newSnap := applyStaging s.staging s.headSnapshot
    some (id,
      { s with
        commits := s.commits ++ [⟨[s.headId], newSnap, msg⟩]
        branches := assocSet s.current id s.branches
        staging := [] })

/-- Modelled from the spec: `create_branch(name)` creates a branch pointer at
the current commit (section 4.3); per the Python tests the store then
operates on the new branch. -/
def create_branch (s : Store) (name : String) : Store :=
  { s with branches := assocSet name s.headId s.branches, current := name }

/-- Modelled from the spec: `checkout(name)` switches the active pointer used
by subsequent operations (section 4.3). -/
def checkout (s : Store) (name : String) : Store :=
  { s with current := name }

/-- Modelled from the spec: `current_commit()` returns the commit id the
active branch points to (section 4.3). -/
def current_commit (s : Store) : Nat := s.headId

/-- Parent ids of a commit. -/
def parentsOf (s : Store) (id : Nat) : List Nat :=
  (s.commits.getD id ⟨[], [], ""⟩).parents

/-- Fueled reachability along parent links.  Commits are append-only and only
reference earlier commits, so ids strictly decrease along parent links and
fuel `b + 1` suffices. -/
def ancestorFuel (s : Store) : Nat → Nat → Nat → Bool
  | 0, a, b => a = b
  | fuel + 1, a, b => a = b || (s.parentsOf b).any fun p => ancestorFuel s fuel a p

/-- Commit `a` is reachable from commit `b` following parent links. -/
def isAncestor (s : Store) (a b : Nat) : Bool := ancestorFuel s (b + 1) a b

/-- Modelled from the spec: the lowest common ancestor of two commits in the
commit DAG (section 4.4); with creation-ordered ids this is the greatest
common-ancestor id. -/
def commonAncestor (s : Store) (x y : Nat) : Option Nat :=
  ((List.range s.commits.length).filter fun i =>
    s.isAncestor i x && s.isAncestor i y).max?

/-- Modelled from the spec: `log()` returns the commits reachable from the
current branch tip, newest first (section 4.3); ids grow with creation time. -/
def log (s : Store) : List Nat :=
  ((List.range s.commits.length).filter fun i => s.isAncestor i s.headId).reverse

/-- Snapshot of a commit's first parent; a root commit is diffed against the
empty tree. -/
def parentSnapshot (s : Store) (c : Nat) : List Entry :=
  match s.parentsOf c with
  | p :: _ => s.snapshotOf p
  | [] => []

/-- Modelled from the spec: `get_commits_for_key(key)` walks the commit
history from the branch tip, newest first, and keeps exactly the commits
whose snapshot differs from their parent's snapshot at that key
(section 4.3). -/
def get_commits_for_key (s : Store) (k : Key) : List Nat :=
  s.log.filter fun c =>
    (assocLookup k (entryDiff (s.parentSnapshot c) (s.snapshotOf c))).isSome

/-- Modelled from the spec: a reference in `diff(ref_a, ref_b)` is either a
commit id or a branch name (section 4.3). -/
inductive Ref where
  | commitId (id : Nat)
  | branch (name : String)

/-- Resolve a reference to a commit id. -/
def resolve (s : Store) : Ref → Option Nat
  | .commitId id => if id < s.commits.length then some id else none
  | .branch n => assocLookup n s.branches

/-- Modelled from the spec: `diff(ref_a, ref_b)` resolves each reference to a
snapshot and returns their entry-level structural diff (section 4.3). -/
def diff (s : Store) (ra rb : Ref) : Option (List (Key × DiffOp)) :=
  match s.resolve ra, s.resolve rb with
  | some ia, some ib => some (entryDiff (s.snapshotOf ia) (s.snapshotOf ib))
  | _, _ => none

end Store

/-! ## Merge engine (spec section 4.4) -/

/-- Modelled from the spec: the conflict-resolution policy
(section 4.4). -/
inductive ConflictResolution where
  | IgnoreAll
  | TakeSource
  | TakeDestination
deriving DecidableEq, Repr

/-- Modelled from the spec: a merge conflict records the key and the base,
source and destination values (section 3). -/
structure MergeConflict where
  key : Key
  base_value : Option Value
  source_value : Option Value
  destination_value : Option Value
deriving DecidableEq, Repr

/-- Modelled from the spec, three-way merge of one key (section 4.4): a side
that did not change the key defers to the other side; identical changes are
applied once; on a genuine conflict the policy picks the source value
(`TakeSource`) or keeps the destination value (`IgnoreAll` and its synonym
`TakeDestination`). -/
def mergeValue (pol : ConflictResolution) (b d s : Option Value) : Option Value :=
  if s = b then d
  else if d = b then s
  else if d = s then d
  else
    match pol with
    | .TakeSource => s
    | _ => d

/-- A key is in conflict when both sides changed it, to different results
(section 3). -/
def isConflictAt (b d s : Option Value) : Bool :=
  decide (s ≠ b) && decide (d ≠ b) && decide (d ≠ s)

/-- Sorted duplicate-free keys of the base snapshot and both sides. -/
def threeWayKeys (base dst src : List Entry) : List Key :=
  keyUnion [base.map Prod.fst, dst.map Prod.fst, src.map Prod.fst]

/-- Modelled from the spec: the merged snapshot, applying `mergeValue` to
every key touched by either side (section 4.4). -/
def mergeSnapshots (pol : ConflictResolution) (base dst src : List Entry) :
    List Entry :=
  (threeWayKeys base dst src).filterMap fun k =>
    (mergeValue pol (lookupKV k base) (lookupKV k dst) (lookupKV k src)).map ((k, ·))

/-- Conflicts between the two sides relative to the base snapshot. -/
def conflictsAt (base dst src : List Entry) : List MergeConflict :=
  (threeWayKeys base dst src).filterMap fun k =>
    let b := lookupKV k base
    let d := lookupKV k dst
    let sv := lookupKV k src
    if isConflictAt b d sv then some ⟨k, b, sv, d⟩ else none

namespace Store

/-- Resolve the source branch and locate the common ancestor of the two tips
(section 4.4). -/
def mergeData (s : Store) (srcBranch : String) : Option (Nat × Nat × Nat) :=
  match assocLookup srcBranch s.branches with
  | none => none
  | some srcTip =>
    match s.commonAncestor s.headId srcTip with
    | none => none
    | some anc => some (anc, s.headId, srcTip)

/-- Modelled from the spec: `try_merge(source)` performs the same
ancestor/diff computation and conflict detection as `merge` but does not
mutate any state or create a commit; it returns `(success, conflicts)`
(section 4.4).  The unchanged store is returned alongside the report. -/
def try_merge (s : Store) (srcBranch : String) :
    (Bool × List MergeConflict) × Store :=
  match s.mergeData srcBranch with
  | none => ((false, []), s)
  | some (anc, dstTip, srcTip) =>
    let cs := conflictsAt (s.snapshotOf anc) (s.snapshotOf dstTip) (s.snapshotOf srcTip)
    ((cs.isEmpty, cs), s)

/-- Modelled from the spec: `merge(source, policy)` computes the three-way
merge against the common ancestor and produces a new commit with two parents
(destination tip, source tip), advancing the current branch (section 4.4). -/
def merge (s : Store) (srcBranch : String) (pol : ConflictResolution) :
    Option (Nat × Store) :=
  match s.mergeData srcBranch with
  | none => none
  | some (anc, dstTip, srcTip) =>
    let newSnap :=
      mergeSnapshots pol (s.snapshotOf anc) (s.snapshotOf dstTip) (s.snapshotOf srcTip)
    let id := s.commits.length
    some (id,
      { s with
        commits := s.commits ++ [⟨[dstTip, srcTip], newSnap, "merge"⟩]
        branches := assocSet s.current id s.branches })

end Store

/-! ## Worktree manager (spec section 4.5) -/

/-- Modelled from the spec: a worktree owns an id, a branch pointer, and an
advisory lock with an optional reason (section 3). -/
structure Worktree where
  id : Nat
  branch : String
  locked : Bool
  lockReason : Option String
deriving DecidableEq, Repr

/-- Modelled from the spec: the lock-related error kinds of the worktree
manager (sections 4.5 and 7). -/
inductive WorktreeError where
  | AlreadyLocked
  | WorktreeNotFound
deriving DecidableEq, Repr

/-- Modelled from the spec: the worktree manager's table of worktrees
(sections 4.5 and 9). -/
structure WorktreeManager where
  worktrees : List Worktree
deriving DecidableEq, Repr

namespace WorktreeManager

/-- Look up a worktree by id. -/
def findWorktree (m : WorktreeManager) (id : Nat) : Option Worktree :=
  m.worktrees.find? fun w => w.id == id

/-- Modelled from the spec: `is_locked(id)` (section 4.5). -/
def is_locked (m : WorktreeManager) (id : Nat) : Bool :=
  ((m.findWorktree id).map (·.locked)).getD false

/-- Lock reason currently recorded for a worktree. -/
def lock_reason (m : WorktreeManager) (id : Nat) : Option String :=
  (m.findWorktree id).bind (·.lockReason)

/-- Modelled from the spec: `lock_worktree(id, reason)` takes the advisory
lock; on an already-locked worktree it fails with `AlreadyLocked` and changes
nothing (section 4.5). -/
def lock_worktree (m : WorktreeManager) (id : Nat) (reason : String) :
    Except WorktreeError WorktreeManager :=
  match m.findWorktree id with
  | none => .error .WorktreeNotFound
  | some w =>
    if w.locked then .error .AlreadyLocked
    else
      .ok ⟨m.worktrees.map fun w' =>
        if w'.id = id then { w' with locked := true, lockReason := some reason } else w'⟩

/-- Modelled from the spec: `unlock_worktree(id)` releases the advisory lock
(section 4.5). -/
def unlock_worktree (m : WorktreeManager) (id : Nat) :
    Except WorktreeError WorktreeManager :=
  match m.findWorktree id with
  | none => .error .WorktreeNotFound
  | some _ =>
    .ok ⟨m.worktrees.map fun w' =>
      if w'.id = id then { w' with locked := false, lockReason := none } else w'⟩

end WorktreeManager

/-! ## Concrete fixtures mirroring the Python test scenarios -/

/-- Commit and keep the new store, defaulting to the input on failure. -/
def commitD (s : Store) (msg : String) : Store := ((s.commit msg).getD (0, s)).2

/-- Fixture mirroring `test_merge_with_conflicts_take_source`: one key set to
`[10]` in the initial commit, changed to `[20]` on branch `feature` and to
`[30]` on `main`. -/
def mergeFixture : Store :=
  let s2 := commitD (Store.init.insert [1] [10]) "initial"
  let s4 := commitD ((s2.create_branch "feature").update [1] [20]).2 "feature change"
  commitD ((s4.checkout "main").update [1] [30]).2 "main change"

/-- Fixture mirroring `test_get_commits_for_key_functionality`: key `[5]` is
written by commits 1 and 2 but untouched by commit 3. -/
def keyHistoryFixture : Store :=
  let a := commitD ((Store.init.insert [5] [1]).insert [6] [2]) "c1"
  let b := commitD ((a.update [5] [3]).2) "c2"
  commitD (b.insert [7] [4]) "c3"

/-- Fixture mirroring `test_diff_between_commits`: commit 1 holds two keys;
commit 2 adds `[3]`, modifies `[1]` and removes `[2]`. -/
def diffFixture : Store :=
  let a := commitD ((Store.init.insert [1] [10]).insert [2] [20]) "c1"
  commitD ((((a.insert [3] [30]).update [1] [11]).2.delete [2]).2) "c2"

/-! ## Basic lemmas about the canonical entry lists -/

theorem lookupKV_sortedInsert_self (k : Key) (v : Value) (l : List Entry) :
    lookupKV k (sortedInsert k v l) = some v := by
  induction l with
  | nil => simp [sortedInsert, lookupKV]
  | cons hd tl ih =>
    obtain ⟨k', v'⟩ := hd
    rcases lt_trichotomy k k' with h | h | h
    · simp [sortedInsert, lookupKV, h]
    · subst h
      simp [sortedInsert, lookupKV, lt_irrefl]
    · simp [sortedInsert, lookupKV, h, h.asymm, (ne_of_gt h), ih]

theorem lookupKV_sortedInsert_ne (k k0 : Key) (v : Value) (l : List Entry)
    (h : k0 ≠ k) : lookupKV k0 (sortedInsert k v l) = lookupKV k0 l := by
  induction l with
  | nil => simp [sortedInsert, lookupKV, h]
  | cons hd tl ih =>
    obtain ⟨k', v'⟩ := hd
    rcases lt_trichotomy k k' with hkk | hkk | hkk
    · simp [sortedInsert, lookupKV, hkk, h]
    · subst hkk
      simp [sortedInsert, lookupKV, lt_irrefl, h]
    · simp [sortedInsert, lookupKV, hkk, hkk.asymm, ne_of_gt hkk, ih]

theorem sortedInsert_comm (k1 k2 : Key) (v1 v2 : Value) (h : k1 ≠ k2) (l : List Entry) :
    sortedInsert k2 v2 (sortedInsert k1 v1 l) = sortedInsert k1 v1 (sortedInsert k2 v2 l) := by
  rcases h.lt_or_lt with hc | hc
  · induction l with
    | nil => simp [sortedInsert, hc, hc.asymm]
    | cons hd tl ih =>
      obtain ⟨k', v'⟩ := hd
      rcases lt_trichotomy k1 k' with h1 | h1 | h1 <;>
        rcases lt_trichotomy k2 k' with h2 | h2 | h2
      · simp [sortedInsert, h1, h2, hc, hc.asymm]
      · subst h2
        simp [sortedInsert, h1, hc, hc.asymm, lt_irrefl]
      · simp [sortedInsert, h1, h2, h2.asymm, ne_of_gt h2, hc, hc.asymm, h1.trans h2]
      · exact absurd (h1 ▸ hc) h2.asymm
      · exact absurd (h1.trans h2.symm) h
      · subst h1
        simp [sortedInsert, h2, h2.asymm, ne_of_gt h2, hc, hc.asymm, lt_irrefl]
      · exact absurd (h2.trans h1) hc.asymm
      · subst h2
        exact absurd h1 hc.asymm
      · simp [sortedInsert, h1, h1.asymm, ne_of_gt h1, h2, h2.asymm, ne_of_gt h2, ih]
  · induction l with
    | nil => simp [sortedInsert, hc, hc.asymm]
    | cons hd tl ih =>
      obtain ⟨k', v'⟩ := hd
      rcases lt_trichotomy k1 k' with h1 | h1 | h1 <;>
        rcases lt_trichotomy k2 k' with h2 | h2 | h2
      · simp [sortedInsert, h1, h2, hc, hc.asymm]
      · subst h2
        exact absurd h1 hc.asymm
      · exact absurd (h1.trans h2) hc.asymm
      · subst h1
        simp [sortedInsert, h2, hc, hc.asymm, lt_irrefl]
      · exact absurd (h1.trans h2.symm) h
      · subst h1
        exact absurd h2 hc.asymm
      · simp [sortedInsert, h1, h1.asymm, ne_of_gt h1, h2, hc, hc.asymm, h2.trans h1]
      · subst h2
        simp [sortedInsert, h1, h1.asymm, ne_of_gt h1, hc, hc.asymm, lt_irrefl]
      · simp [sortedInsert, h1, h1.asymm, ne_of_gt h1, h2, h2.asymm, ne_of_gt h2, ih]

theorem mem_sortedInsert (e : Entry) (k : Key) (v : Value) (l : List Entry)
    (h : e ∈ sortedInsert k v l) : e = (k, v) ∨ e ∈ l := by
  induction l with
  | nil => simpa [sortedInsert] using h
  | cons hd tl ih =>
    obtain ⟨k', v'⟩ := hd
    by_cases h1 : k < k'
    · simp only [sortedInsert, if_pos h1] at h
      simp at h ⊢
      tauto
    · by_cases h2 : k' < k
      · simp only [sortedInsert, if_neg h1, if_pos h2] at h
        rcases List.mem_cons.mp h with h | h
        · exact Or.inr (by simp [h])
        · rcases ih h with h' | h'
          · exact Or.inl h'
          · exact Or.inr (by simp [h'])
      · simp only [sortedInsert, if_neg h1, if_neg h2] at h
        rcases List.mem_cons.mp h with h | h
        · exact Or.inl h
        · exact Or.inr (by simp [h])

theorem lookupKV_eq_none_of_not_mem (k : Key) (l : List Entry)
    (h : k ∉ l.map Prod.fst) : lookupKV k l = none := by
  induction l with
  | nil => rfl
  | cons hd tl ih =>
    obtain ⟨k', v'⟩ := hd
    rw [List.map_cons, List.mem_cons] at h
    push_neg at h
    simp [lookupKV, h.1, ih h.2]

theorem mem_keys_of_lookupKV (k : Key) (l : List Entry) (v : Value)
    (h : lookupKV k l = some v) : k ∈ l.map Prod.fst := by
  induction l with
  | nil => simp [lookupKV] at h
  | cons hd tl ih =>
    obtain ⟨k', v'⟩ := hd
    by_cases hk : k = k'
    · simp [hk]
    · simp [lookupKV, hk] at h
      simp [ih h]

theorem mem_of_lookupKV (k : Key) (l : List Entry) (v : Value)
    (h : lookupKV k l = some v) : (k, v) ∈ l := by
  induction l with
  | nil => simp [lookupKV] at h
  | cons hd tl ih =>
    obtain ⟨k', v'⟩ := hd
    by_cases hk : k = k'
    · subst hk
      simp [lookupKV] at h
      simp [h]
    · simp [lookupKV, hk] at h
      simp [ih h]

/-- Strict key-sortedness of an entry list: the canonical snapshot form. -/
def entriesSorted (l : List Entry) : Prop :=
  List.Pairwise (fun a b : Entry => a.1 < b.1) l

theorem entriesSorted_sortedInsert (k : Key) (v : Value) (l : List Entry)
    (h : entriesSorted l) : entriesSorted (sortedInsert k v l) := by
  induction l with
  | nil => simp [sortedInsert, entriesSorted]
  | cons hd tl ih =>
    obtain ⟨k', v'⟩ := hd
    rw [entriesSorted, List.pairwise_cons] at h
    rcases lt_trichotomy k k' with h1 | h1 | h1
    · rw [entriesSorted]
      simp only [sortedInsert, if_pos h1]
      refine List.Pairwise.cons ?_ (List.Pairwise.cons h.1 h.2)
      intro b hb
      rcases List.mem_cons.mp hb with hb | hb
      · simpa [hb] using h1
      · exact h1.trans (h.1 b hb)
    · subst h1
      rw [entriesSorted]
      simp only [sortedInsert, lt_self_iff_false, if_false]
      exact List.Pairwise.cons h.1 h.2
    · rw [entriesSorted]
      simp only [sortedInsert, if_neg (not_lt_of_gt h1), if_pos h1]
      refine List.Pairwise.cons ?_ (ih h.2)
      intro b hb
      rcases mem_sortedInsert b k v tl hb with hb | hb
      · simpa [hb] using h1
      · exact h.1 b hb

theorem entriesSorted_lookup_ext : ∀ l1 l2 : List Entry,
    entriesSorted l1 → entriesSorted l2 →
    (∀ k, lookupKV k l1 = lookupKV k l2) → l1 = l2 := by
  intro l1
  induction l1 with
  | nil =>
    intro l2 _ _ hl
    cases l2 with
    | nil => rfl
    | cons hd tl =>
      exfalso
      have := hl hd.1
      simp [lookupKV] at this
  | cons hd1 tl1 ih =>
    intro l2 h1 h2 hl
    obtain ⟨k1, v1⟩ := hd1
    cases l2 with
    | nil =>
      exfalso
      have := hl k1
      simp [lookupKV] at this
    | cons hd2 tl2 =>
      obtain ⟨k2, v2⟩ := hd2
      rw [entriesSorted, List.pairwise_cons] at h1 h2
      have hk12 : k1 = k2 := by
        by_contra hne
        have hm1 : k1 ∈ ((k2, v2) :: tl2).map Prod.fst := by
          apply mem_keys_of_lookupKV k1 _ v1
          rw [← hl k1]
          simp [lookupKV]
        have hm2 : k2 ∈ ((k1, v1) :: tl1).map Prod.fst := by
          apply mem_keys_of_lookupKV k2 _ v2
          rw [hl k2]
          simp [lookupKV]
        simp at hm1 hm2
        rcases hm1 with hm1 | ⟨x1, hx1⟩
        · exact hne hm1
        · rcases hm2 with hm2 | ⟨x2, hx2⟩
          · exact hne hm2.symm
          · have hb1 : k2 < k1 := h2.1 (k1, x1) hx1
            have hb2 : k1 < k2 := h1.1 (k2, x2) hx2
            exact absurd (hb1.trans hb2) (lt_irrefl k2)
      subst hk12
      have hv12 : v1 = v2 := by
        have := hl k1
        simpa [lookupKV] using this
      subst hv12
      have htl : tl1 = tl2 := by
        apply ih tl2 h1.2 h2.2
        intro k
        by_cases hk : k = k1
        · subst hk
          have hn1 : lookupKV k tl1 = none := by
            apply lookupKV_eq_none_of_not_mem
            intro hm
            obtain ⟨w, hw, hwk⟩ := List.mem_map.mp hm
            exact absurd (hwk ▸ h1.1 w hw) (lt_irrefl k)
          have hn2 : lookupKV k tl2 = none := by
            apply lookupKV_eq_none_of_not_mem
            intro hm
            obtain ⟨w, hw, hwk⟩ := List.mem_map.mp hm
            exact absurd (hwk ▸ h2.1 w hw) (lt_irrefl k)
          rw [hn1, hn2]
        · have := hl k
          simpa [lookupKV, hk] using this
      rw [htl]

theorem insertList_config (t : ProllyTree) (l : List Entry) :
    (t.insertList l).config = t.config := by
  induction l generalizing t with
  | nil => rfl
  | cons hd tl ih => exact (ih (t.insert hd.1 hd.2)).trans rfl

theorem insertList_entries (t : ProllyTree) (l : List Entry) :
    (t.insertList l).entries = l.foldl (fun es e => sortedInsert e.1 e.2 es) t.entries := by
  induction l generalizing t with
  | nil => rfl
  | cons hd tl ih => exact (ih (t.insert hd.1 hd.2)).trans rfl

theorem entriesSorted_foldl (l : List Entry) (init : List Entry)
    (h : entriesSorted init) :
    entriesSorted (l.foldl (fun es e => sortedInsert e.1 e.2 es) init) := by
  induction l generalizing init with
  | nil => exact h
  | cons hd tl ih => exact ih _ (entriesSorted_sortedInsert hd.1 hd.2 init h)

/-- C1: building a tree by inserting a set of key/value entries in any
permutation yields the same `get_root_hash()`; equivalently, two snapshots
holding identical key/value content (the same `find` results) have identical
root hashes, independent of the edit history that built them. -/
theorem c1_root_hash_history_independent (cfg : TreeConfig) (l1 l2 : List Entry) :
    (l1.Perm l2 → (l1.map Prod.fst).Nodup →
      ((ProllyTree.empty cfg).insertList l1).get_root_hash
        = ((ProllyTree.empty cfg).insertList l2).get_root_hash)
    ∧ ((∀ k, ((ProllyTree.empty cfg).insertList l1).find k
          = ((ProllyTree.empty cfg).insertList l2).find k) →
      ((ProllyTree.empty cfg).insertList l1).get_root_hash
        = ((ProllyTree.empty cfg).insertList l2).get_root_hash) := by
  constructor
  · intro hperm hnd
    have hent : ((ProllyTree.empty cfg).insertList l1).entries
        = ((ProllyTree.empty cfg).insertList l2).entries := by
      rw [insertList_entries, insertList_entries]
      refine hperm.foldl_eq' ?_ _
      intro x hx y hy z
      by_cases hxy : x = y
      · rw [hxy]
      · have hk : x.1 ≠ y.1 := fun he => hxy (List.inj_on_of_nodup_map hnd hx hy he)
        exact sortedInsert_comm x.1 y.1 x.2 y.2 hk z
    rw [ProllyTree.get_root_hash, ProllyTree.get_root_hash,
      insertList_config, insertList_config, hent]
  · intro hfind
    have hs1 : entriesSorted ((ProllyTree.empty cfg).insertList l1).entries := by
      rw [insertList_entries]
      exact entriesSorted_foldl l1 [] List.Pairwise.nil
    have hs2 : entriesSorted ((ProllyTree.empty cfg).insertList l2).entries := by
      rw [insertList_entries]
      exact entriesSorted_foldl l2 [] List.Pairwise.nil
    have hent := entriesSorted_lookup_ext _ _ hs1 hs2 hfind
    rw [ProllyTree.get_root_hash, ProllyTree.get_root_hash,
      insertList_config, insertList_config, hent]

/-- Witness for C1: a concrete three-entry key set inserted in two different
orders produces the same root. -/
theorem c1_witness :
    ((ProllyTree.empty ⟨4, 64, 1, 4096, 0⟩).insertList
        [([1], [10]), ([2], [20]), ([3], [30])]).get_root_hash
      = ((ProllyTree.empty ⟨4, 64, 1, 4096, 0⟩).insertList
        [([3], [30]), ([1], [10]), ([2], [20])]).get_root_hash :=
  (c1_root_hash_history_independent ⟨4, 64, 1, 4096, 0⟩
    [([1], [10]), ([2], [20]), ([3], [30])]
    [([3], [30]), ([1], [10]), ([2], [20])]).1 (by decide) (by decide)

/-- C9: immediately after every successful `commit(message)` the staging
area is empty: `status()` returns an empty list. -/
theorem c9_commit_clears_staging (s : Store) (msg : String) (id : Nat) (s' : Store)
    (h : s.commit msg = some (id, s')) : s'.status = [] := by
  rw [Store.commit] at h
  split at h
  · exact absurd h (by simp)
  · simp only [Option.some.injEq, Prod.mk.injEq] at h
    rw [← h.2]
    rfl

/-- Witness for C9: a concrete store with one staged insert commits
successfully and reports an empty status afterwards. -/
theorem c9_witness :
    ((((Store.init.insert [1] [2]).commit "m").getD (0, Store.init)).2).status = [] := by
  have h : (Store.init.insert [1] [2]).commit "m"
      = some (((Store.init.insert [1] [2]).commit "m").getD (0, Store.init)) := by rfl
  exact c9_commit_clears_staging _ "m" _ _ h

/-- C10: `update` and `delete` report their outcome as a boolean return
value (true exactly when the key is present), absent keys leave the store
unchanged, and `get`/`find` on an absent key returns `none` rather than an
error. -/
theorem c10_update_delete_report_boolean (s : Store) (k : Key) (v : Value) :
    ((s.update k v).1 = (s.get k).isSome)
    ∧ ((s.delete k).1 = (s.get k).isSome)
    ∧ ((s.get k).isSome = false →
        (s.update k v).2 = s ∧ (s.delete k).2 = s ∧ s.get k = none) := by
  refine ⟨?_, ?_, ?_⟩
  · rw [Store.update]
    by_cases h : (s.get k).isSome <;> simp [h]
  · rw [Store.delete]
    by_cases h : (s.get k).isSome <;> simp [h]
  · intro h
    refine ⟨by simp [Store.update, h], by simp [Store.delete, h], ?_⟩
    cases hg : s.get k with
    | none => rfl
    | some w => rw [hg] at h; simp at h

/-- Witness for C10: on a fresh store every key is absent, so `update` and
`delete` report `false` and `get` returns `none`. -/
theorem c10_witness :
    (Store.init.update [9] [1]).1 = false
    ∧ (Store.init.delete [9]).1 = false
    ∧ Store.init.get [9] = none := by
  obtain ⟨h1, h2, h3⟩ := c10_update_delete_report_boolean Store.init [9] [1]
  have hg : (Store.init.get [9]).isSome = false := by decide
  exact ⟨by rw [h1, hg], by rw [h2, hg], (h3 hg).2.2⟩

/-- C5: `try_merge(source)` never changes the store: the returned state is
the input state, so `current_commit()`, `status()` and every key's value are
unchanged whether or not conflicts were found. -/
theorem c5_try_merge_never_mutates (s : Store) (src : String) :
    (s.try_merge src).2 = s
    ∧ (s.try_merge src).2.current_commit = s.current_commit
    ∧ (s.try_merge src).2.status = s.status
    ∧ (∀ k, (s.try_merge src).2.get k = s.get k) := by
  have h : (s.try_merge src).2 = s := by
    rw [Store.try_merge]
    split <;> rfl
  exact ⟨h, by rw [h], by rw [h], fun k => by rw [h]⟩

theorem find_map_update (l : List Worktree) (id : Nat) (f : Worktree → Worktree)
    (hf : ∀ w, (f w).id = w.id) :
    (l.map fun w => if w.id = id then f w else w).find? (fun w => w.id == id)
      = (l.find? fun w => w.id == id).map f := by
  induction l with
  | nil => rfl
  | cons hd tl ih =>
    by_cases h : hd.id = id
    · simp [List.find?_cons, h, hf]
    · simp [List.find?_cons, h, ih]

theorem findWorktree_update (m : WorktreeManager) (id : Nat) (f : Worktree → Worktree)
    (hf : ∀ w, (f w).id = w.id) :
    WorktreeManager.findWorktree
        ⟨m.worktrees.map fun w => if w.id = id then f w else w⟩ id
      = (m.findWorktree id).map f := by
  rw [WorktreeManager.findWorktree, WorktreeManager.findWorktree]
  exact find_map_update m.worktrees id f hf

/-- C8: `lock_worktree` on an already-locked worktree fails with
`AlreadyLocked`, leaving the worktree locked with its original reason; after
`unlock_worktree`, `is_locked` is false and a subsequent `lock_worktree`
succeeds, locking with the new reason. -/
theorem c8_lock_unlock_relock (m : WorktreeManager) (id : Nat) (w : Worktree)
    (r2 : String) (hf : m.findWorktree id = some w) (hl : w.locked = true) :
    m.lock_worktree id r2 = .error .AlreadyLocked
    ∧ (m.is_locked id = true ∧ m.lock_reason id = w.lockReason)
    ∧ (∀ m', m.unlock_worktree id = .ok m' →
        m'.is_locked id = false
        ∧ ∃ m'', m'.lock_worktree id r2 = .ok m''
            ∧ m''.is_locked id = true ∧ m''.lock_reason id = some r2) := by
  refine ⟨?_, ⟨?_, ?_⟩, ?_⟩
  · rw [WorktreeManager.lock_worktree, hf]
    simp [hl]
  · rw [WorktreeManager.is_locked, hf]
    simp [hl]
  · rw [WorktreeManager.lock_reason, hf]
    rfl
  · intro m' hm'
    rw [WorktreeManager.unlock_worktree, hf] at hm'
    simp only [Except.ok.injEq] at hm'
    have hfind' : m'.findWorktree id
        = some { w with locked := false, lockReason := none } := by
      rw [← hm']
      rw [findWorktree_update m id
        (fun w0 => { w0 with locked := false, lockReason := none }) (fun _ => rfl), hf]
      rfl
    constructor
    · rw [WorktreeManager.is_locked, hfind']
      rfl
    · rw [WorktreeManager.lock_worktree, hfind']
      simp only [Bool.false_eq_true, if_false]
      refine ⟨_, rfl, ?_, ?_⟩
      · rw [WorktreeManager.is_locked,
          findWorktree_update m' id
            (fun w0 => { w0 with locked := true, lockReason := some r2 }) (fun _ => rfl),
          hfind']
        rfl
      · rw [WorktreeManager.lock_reason,
          findWorktree_update m' id
            (fun w0 => { w0 with locked := true, lockReason := some r2 }) (fun _ => rfl),
          hfind']
        rfl

/-- Witness for C8: a one-worktree manager whose worktree is locked. -/
theorem c8_witness :
    (WorktreeManager.mk [⟨1, "agent", true, some "busy"⟩]).lock_worktree 1 "again"
        = .error .AlreadyLocked
    ∧ ∀ m', (WorktreeManager.mk [⟨1, "agent", true, some "busy"⟩]).unlock_worktree 1
          = .ok m' →
        m'.is_locked 1 = false
        ∧ ∃ m'', m'.lock_worktree 1 "again" = .ok m''
            ∧ m''.is_locked 1 = true ∧ m''.lock_reason 1 = some "again" := by
  have h := c8_lock_unlock_relock (WorktreeManager.mk [⟨1, "agent", true, some "busy"⟩])
    1 ⟨1, "agent", true, some "busy"⟩ "again" (by decide) rfl
  exact ⟨h.1, h.2.2⟩

/-! ## Lemmas about sorted key lists and the entry-level diff -/

theorem mem_insertKeySorted (a k : Key) (l : List Key) :
    a ∈ insertKeySorted k l ↔ a = k ∨ a ∈ l := by
  induction l with
  | nil => simp [insertKeySorted]
  | cons hd tl ih =>
    by_cases h1 : k < hd
    · simp only [insertKeySorted, if_pos h1]
      simp
    · by_cases h2 : hd < k
      · simp only [insertKeySorted, if_neg h1, if_pos h2]
        simp [ih]
        tauto
      · have hk : k = hd := le_antisymm (not_lt.mp h2) (not_lt.mp h1)
        simp only [insertKeySorted, if_neg h1, if_neg h2]
        simp [hk]

theorem pairwise_insertKeySorted (k : Key) (l : List Key)
    (h : List.Pairwise (· < ·) l) :
    List.Pairwise (· < ·) (insertKeySorted k l) := by
  induction l with
  | nil => simp [insertKeySorted]
  | cons hd tl ih =>
    rw [List.pairwise_cons] at h
    by_cases h1 : k < hd
    · simp only [insertKeySorted, if_pos h1]
      refine List.Pairwise.cons ?_ (List.Pairwise.cons h.1 h.2)
      intro b hb
      rcases List.mem_cons.mp hb with hb | hb
      · exact hb ▸ h1
      · exact h1.trans (h.1 b hb)
    · by_cases h2 : hd < k
      · simp only [insertKeySorted, if_neg h1, if_pos h2]
        refine List.Pairwise.cons ?_ (ih h.2)
        intro b hb
        rcases (mem_insertKeySorted b k tl).mp hb with hb | hb
        · exact hb ▸ h2
        · exact h.1 b hb
      · simp only [insertKeySorted, if_neg h1, if_neg h2]
        exact List.Pairwise.cons h.1 h.2

theorem keysSorted_ext : ∀ l1 l2 : List Key,
    List.Pairwise (· < ·) l1 → List.Pairwise (· < ·) l2 →
    (∀ k, k ∈ l1 ↔ k ∈ l2) → l1 = l2 := by
  intro l1
  induction l1 with
  | nil =>
    intro l2 _ _ hm
    cases l2 with
    | nil => rfl
    | cons hd tl => exact absurd ((hm hd).mpr (by simp)) (by simp)
  | cons k1 r1 ih =>
    intro l2 h1 h2 hm
    cases l2 with
    | nil => exact absurd ((hm k1).mp (by simp)) (by simp)
    | cons k2 r2 =>
      rw [List.pairwise_cons] at h1 h2
      have hk12 : k1 = k2 := by
        rcases List.mem_cons.mp ((hm k1).mp (by simp)) with h | h
        · exact h
        · rcases List.mem_cons.mp ((hm k2).mpr (by simp)) with h' | h'
          · exact h'.symm
          · exact absurd ((h2.1 k1 h).trans (h1.1 k2 h')) (lt_irrefl k2)
      subst hk12
      have htl : r1 = r2 := by
        apply ih r2 h1.2 h2.2
        intro k
        constructor
        · intro hk
          rcases List.mem_cons.mp ((hm k).mp (List.mem_cons_of_mem _ hk)) with h | h
          · exact absurd (h ▸ h1.1 k hk) (lt_irrefl k1)
          · exact h
        · intro hk
          rcases List.mem_cons.mp ((hm k).mpr (List.mem_cons_of_mem _ hk)) with h | h
          · exact absurd (h ▸ h2.1 k hk) (lt_irrefl k1)
          · exact h
      rw [htl]

theorem mem_foldl_insertKeySorted (l acc : List Key) (a : Key) :
    a ∈ l.foldl (fun acc k => insertKeySorted k acc) acc ↔ a ∈ acc ∨ a ∈ l := by
  induction l generalizing acc with
  | nil => simp
  | cons hd tl ih =>
    rw [List.foldl_cons, ih, mem_insertKeySorted]
    simp
    tauto

theorem pairwise_foldl_insertKeySorted (l acc : List Key)
    (h : List.Pairwise (· < ·) acc) :
    List.Pairwise (· < ·) (l.foldl (fun acc k => insertKeySorted k acc) acc) := by
  induction l generalizing acc with
  | nil => exact h
  | cons hd tl ih => exact ih _ (pairwise_insertKeySorted hd acc h)

theorem keyUnion_sorted (ls : List (List Key)) :
    List.Pairwise (· < ·) (keyUnion ls) :=
  pairwise_foldl_insertKeySorted _ _ List.Pairwise.nil

theorem mem_keyUnion (ls : List (List Key)) (a : Key) :
    a ∈ keyUnion ls ↔ a ∈ ls.flatten := by
  rw [keyUnion, mem_foldl_insertKeySorted]
  simp

theorem nodup_keyUnion (ls : List (List Key)) : (keyUnion ls).Nodup :=
  (keyUnion_sorted ls).imp ne_of_lt

theorem keyUnion_congr (ls1 ls2 : List (List Key))
    (h : ∀ a, a ∈ ls1.flatten ↔ a ∈ ls2.flatten) : keyUnion ls1 = keyUnion ls2 :=
  keysSorted_ext _ _ (keyUnion_sorted ls1) (keyUnion_sorted ls2)
    (fun k => by rw [mem_keyUnion, mem_keyUnion]; exact h k)

theorem lookupKV_eq_assocLookup (k : Key) (l : List Entry) :
    lookupKV k l = assocLookup k l := by
  induction l with
  | nil => rfl
  | cons hd tl ih =>
    obtain ⟨k', v'⟩ := hd
    rw [lookupKV, assocLookup, ih]

theorem mem_of_assocLookup {α β : Type} [DecidableEq α] (k : α) (l : List (α × β))
    (b : β) (h : assocLookup k l = some b) : (k, b) ∈ l := by
  induction l with
  | nil => simp [assocLookup] at h
  | cons hd tl ih =>
    obtain ⟨k', v'⟩ := hd
    by_cases hk : k = k'
    · subst hk
      simp [assocLookup] at h
      simp [h]
    · simp [assocLookup, hk] at h
      simp [ih h]

theorem assocLookup_filterMapKeys {β : Type} (ks : List Key) (f : Key → Option β)
    (k : Key) (hnd : ks.Nodup) :
    assocLookup k (ks.filterMap fun k0 => (f k0).map ((k0, ·)))
      = if k ∈ ks then f k else none := by
  induction ks with
  | nil => simp [assocLookup]
  | cons hd tl ih =>
    obtain ⟨hhd, htl⟩ := List.nodup_cons.mp hnd
    cases hf : f hd with
    | none =>
      rw [List.filterMap_cons]
      simp only [hf, Option.map_none']
      rw [ih htl]
      by_cases hk : k = hd
      · subst hk
        simp [hhd, hf]
      · simp [hk]
    | some b =>
      rw [List.filterMap_cons]
      simp only [hf, Option.map_some']
      by_cases hk : k = hd
      · subst hk
        simp [assocLookup, hf]
      · rw [assocLookup, if_neg hk, ih htl]
        simp [hk]

theorem assocLookup_entryDiff (a b : List Entry) (k : Key) :
    assocLookup k (entryDiff a b) = classifyKey a b k := by
  rw [entryDiff, assocLookup_filterMapKeys _ _ _ (nodup_keyUnion _)]
  by_cases hk : k ∈ keyUnion [a.map Prod.fst, b.map Prod.fst]
  · rw [if_pos hk]
  · rw [if_neg hk]
    rw [mem_keyUnion] at hk
    simp only [List.flatten, List.mem_append, List.append_nil, not_or] at hk
    have ha : lookupKV k a = none := lookupKV_eq_none_of_not_mem _ _ (by tauto)
    have hb : lookupKV k b = none := lookupKV_eq_none_of_not_mem _ _ (by tauto)
    rw [classifyKey, ha, hb]

theorem classifyKey_self (a : List Entry) (k : Key) : classifyKey a a k = none := by
  rw [classifyKey]
  cases h : lookupKV k a <;> simp

theorem classifyKey_swap (a b : List Entry) (k : Key) :
    classifyKey b a k = (classifyKey a b k).map invertOp := by
  rw [classifyKey, classifyKey]
  cases ha : lookupKV k a <;> cases hb : lookupKV k b <;> simp [invertOp]
  rename_i va vb
  by_cases hv : va = vb
  · simp [hv]
  · simp [hv, Ne.symm hv, invertOp]

theorem mem_entryDiff (a b : List Entry) (k : Key) (op : DiffOp) :
    (k, op) ∈ entryDiff a b ↔ classifyKey a b k = some op := by
  rw [entryDiff, List.mem_filterMap]
  constructor
  · rintro ⟨k0, _, hmap⟩
    cases hc : classifyKey a b k0 with
    | none => rw [hc] at hmap; simp at hmap
    | some op0 =>
      rw [hc] at hmap
      simp only [Option.map_some', Option.some.injEq, Prod.mk.injEq] at hmap
      rw [← hmap.1, hc, hmap.2]
  · intro hc
    refine ⟨k, ?_, by rw [hc]; rfl⟩
    rw [mem_keyUnion]
    simp only [List.flatten, List.mem_append, List.append_nil]
    rw [classifyKey] at hc
    cases ha : lookupKV k a with
    | some va => exact Or.inl (mem_keys_of_lookupKV k a va ha)
    | none =>
      cases hb : lookupKV k b with
      | some vb => exact Or.inr (mem_keys_of_lookupKV k b vb hb)
      | none => rw [ha, hb] at hc; simp at hc

theorem entryDiff_self (a : List Entry) : entryDiff a a = [] := by
  rw [entryDiff, List.filterMap_eq_nil_iff]
  intro k _
  rw [classifyKey_self]
  rfl

theorem entryDiff_swap (a b : List Entry) :
    entryDiff b a = (entryDiff a b).map fun e => (e.1, invertOp e.2) := by
  rw [entryDiff, entryDiff, List.map_filterMap]
  have hku : keyUnion [b.map Prod.fst, a.map Prod.fst]
      = keyUnion [a.map Prod.fst, b.map Prod.fst] := by
    apply keyUnion_congr
    intro x
    simp only [List.flatten, List.mem_append, List.append_nil]
    tauto
  rw [hku]
  congr 1
  funext k
  rw [classifyKey_swap]
  cases classifyKey a b k <;> simp

/-- C6: `diff(x, x)` is empty for every resolvable reference `x`, and
`diff(A, B)` equals `diff(B, A)` with every entry's operation inverted
(Added swapped with Removed, old and new values swapped for Modified). -/
theorem c6_diff_empty_and_antisymmetric (s : Store) :
    (∀ r i, s.resolve r = some i → s.diff r r = some [])
    ∧ (∀ ra rb d, s.diff ra rb = some d →
        s.diff rb ra = some (d.map fun e => (e.1, invertOp e.2))) := by
  constructor
  · intro r i h
    rw [Store.diff, h]
    simp [entryDiff_self]
  · intro ra rb d h
    rw [Store.diff] at h
    cases hra : s.resolve ra with
    | none => rw [hra] at h; simp at h
    | some ia =>
      cases hrb : s.resolve rb with
      | none => rw [hra, hrb] at h; simp at h
      | some ib =>
        rw [hra, hrb] at h
        simp only [Option.some.injEq] at h
        rw [Store.diff, hra, hrb]
        simp only [Option.some.injEq]
        rw [entryDiff_swap, h]

/-- Witness for C6: the fresh store's root commit diffed with itself is
empty, and on a concrete two-commit store the reversed diff is the inverted
forward diff. -/
theorem c6_witness :
    Store.init.diff (.commitId 0) (.commitId 0) = some []
    ∧ diffFixture.diff (.commitId 2) (.commitId 1)
        = some (([([1], DiffOp.modified [10] [11]), ([2], DiffOp.removed [20]),
            ([3], DiffOp.added [30])]).map fun e => (e.1, invertOp e.2)) :=
  ⟨(c6_diff_empty_and_antisymmetric Store.init).1 (.commitId 0) 0 (by decide),
   (c6_diff_empty_and_antisymmetric diffFixture).2 (.commitId 1) (.commitId 2)
     _ (by decide)⟩

/-- C7: `get_commits_for_key(k)` returns exactly the commits reachable from
the current branch tip whose snapshot differs from their parent's snapshot
at `k` (the parent diff contains `k`), and the result is ordered newest
first (strictly descending creation order). -/
theorem c7_get_commits_for_key_exact (s : Store) (k : Key) :
    (∀ c, c ∈ s.get_commits_for_key k ↔
      (c < s.commits.length ∧ s.isAncestor c s.headId = true
        ∧ ∃ op, (k, op) ∈ entryDiff (s.parentSnapshot c) (s.snapshotOf c)))
    ∧ List.Pairwise (fun a b => b < a) (s.get_commits_for_key k) := by
  constructor
  · intro c
    rw [Store.get_commits_for_key, List.mem_filter, Store.log, List.mem_reverse,
      List.mem_filter, List.mem_range]
    constructor
    · rintro ⟨⟨h1, h2⟩, h3⟩
      refine ⟨h1, h2, ?_⟩
      obtain ⟨op, hop⟩ := Option.isSome_iff_exists.mp h3
      exact ⟨op, (mem_entryDiff _ _ _ _).mpr ((assocLookup_entryDiff _ _ _).symm.trans hop)⟩
    · rintro ⟨h1, h2, op, hop⟩
      refine ⟨⟨h1, h2⟩, ?_⟩
      rw [assocLookup_entryDiff, (mem_entryDiff _ _ _ _).mp hop]
      rfl
  · rw [Store.get_commits_for_key]
    apply List.Pairwise.filter
    rw [Store.log, List.pairwise_reverse]
    exact (List.pairwise_lt_range s.commits.length).filter _

/-- Witness for C7: in the key-history fixture, commit 2 (which rewrote key
`[5]`) is reported for that key, commit 3 (which did not touch it) is not,
and the result is newest-first. -/
theorem c7_witness :
    2 ∈ keyHistoryFixture.get_commits_for_key [5]
    ∧ (3 ∈ keyHistoryFixture.get_commits_for_key [5] → False)
    ∧ List.Pairwise (fun a b => b < a) (keyHistoryFixture.get_commits_for_key [5]) := by
  refine ⟨?_, ?_, (c7_get_commits_for_key_exact keyHistoryFixture [5]).2⟩
  · exact ((c7_get_commits_for_key_exact keyHistoryFixture [5]).1 2).mpr
      ⟨by decide, by decide, ⟨DiffOp.modified [1] [3], by decide⟩⟩
  · intro h
    obtain ⟨-, -, op, hop⟩ := ((c7_get_commits_for_key_exact keyHistoryFixture [5]).1 3).mp h
    have := (mem_entryDiff _ _ _ _).mp hop
    rw [show classifyKey (keyHistoryFixture.parentSnapshot 3)
        (keyHistoryFixture.snapshotOf 3) [5] = none by decide] at this
    exact Option.noConfusion this

theorem assocLookup_assocSet_self {α β : Type} [DecidableEq α] (k : α) (v : β)
    (l : List (α × β)) : assocLookup k (assocSet k v l) = some v := by
  induction l with
  | nil => simp [assocSet, assocLookup]
  | cons hd tl ih =>
    obtain ⟨k', v'⟩ := hd
    by_cases hk : k = k'
    · simp [assocSet, hk, assocLookup]
    · simp [assocSet, hk, assocLookup, ih]

theorem lookupKV_mergeSnapshots (pol : ConflictResolution)
    (base dst src : List Entry) (k : Key) :
    lookupKV k (mergeSnapshots pol base dst src)
      = mergeValue pol (lookupKV k base) (lookupKV k dst) (lookupKV k src) := by
  unfold mergeSnapshots threeWayKeys
  rw [lookupKV_eq_assocLookup, assocLookup_filterMapKeys _ _ _ (nodup_keyUnion _)]
  by_cases hk : k ∈ keyUnion [base.map Prod.fst, dst.map Prod.fst, src.map Prod.fst]
  · rw [if_pos hk]
  · rw [if_neg hk]
    rw [mem_keyUnion] at hk
    simp only [List.flatten, List.mem_append, List.append_nil, not_or] at hk
    have hb : lookupKV k base = none := lookupKV_eq_none_of_not_mem _ _ (by tauto)
    have hd : lookupKV k dst = none := lookupKV_eq_none_of_not_mem _ _ (by tauto)
    have hs : lookupKV k src = none := lookupKV_eq_none_of_not_mem _ _ (by tauto)
    rw [hb, hd, hs]
    simp [mergeValue]

/-- C4: after `merge(source, TakeSource)` where key `k` was changed to
different values on both sides relative to the common ancestor, `get(k)`
returns the source branch's value; after the same merge with policy
`IgnoreAll`, it returns the destination branch's prior value. -/
theorem c4_merge_policy_resolves_conflict (s : Store) (src : String) (k : Key)
    (b d v : Value) (srcTip anc : Nat)
    (hsb : assocLookup src s.branches = some srcTip)
    (hca : s.commonAncestor s.headId srcTip = some anc)
    (hb : lookupKV k (s.snapshotOf anc) = some b)
    (hd : lookupKV k (s.snapshotOf s.headId) = some d)
    (hs : lookupKV k (s.snapshotOf srcTip) = some v)
    (hdb : d ≠ b) (hvb : v ≠ b) (hdv : d ≠ v)
    (hstage : s.staging = []) :
    (∀ id s', s.merge src .TakeSource = some (id, s') → s'.get k = some v)
    ∧ (∀ id s', s.merge src .IgnoreAll = some (id, s') → s'.get k = some d) := by
  have hmd : s.mergeData src = some (anc, s.headId, srcTip) := by
    rw [Store.mergeData, hsb]
    simp only [hca]
  have key : ∀ pol id s', s.merge src pol = some (id, s') →
      s'.get k = mergeValue pol (some b) (some d) (some v) := by
    intro pol id s' h
    rw [Store.merge, hmd] at h
    simp only [Option.some.injEq, Prod.mk.injEq] at h
    obtain ⟨hid, hs'⟩ := h
    subst hs'
    simp only [Store.get, Store.headSnapshot, Store.headId, Store.snapshotOf, hstage,
      assocLookup, assocLookup_assocSet_self, Option.getD_some]
    rw [List.getD_append_right _ _ _ _ (le_refl _)]
    simp only [Nat.sub_self, List.getD_cons_zero]
    simp only [Store.snapshotOf, Store.headId] at hb hd hs
    rw [lookupKV_mergeSnapshots, hb, hd, hs]
  constructor
  · intro id s' h
    rw [key .TakeSource id s' h]
    simp [mergeValue, hvb, hdb, hdv]
  · intro id s' h
    rw [key .IgnoreAll id s' h]
    simp [mergeValue, hvb, hdb, hdv]

/-- Witness for C4: the conflict fixture merged with `TakeSource` yields the
feature branch's value `[20]` for the conflicting key, and with `IgnoreAll`
the destination's prior value `[30]`. -/
theorem c4_witness :
    ((mergeFixture.merge "feature" .TakeSource).getD (0, Store.init)).2.get [1]
        = some [20]
    ∧ ((mergeFixture.merge "feature" .IgnoreAll).getD (0, Store.init)).2.get [1]
        = some [30] := by
  have h := c4_merge_policy_resolves_conflict mergeFixture "feature" [1]
    [10] [30] [20] 2 1
    (by decide) (by decide) (by decide) (by decide) (by decide)
    (by decide) (by decide) (by decide) (by decide)
  exact ⟨h.1 _ _ (by rfl), h.2 _ _ (by rfl)⟩

/-- C3: the entry-level diff required by the spec, evaluated on the exact
trees of the bindings' `test_tree_diff` (keys and values as ASCII bytes:
tree one holds `shared`, `only_in_tree1` and `modified = original`; tree two
holds `shared`, `only_in_tree2` and `modified = changed`).  The required
diff reports the three differing keys — `modified` as Modified,
`only_in_tree1` as Removed, `only_in_tree2` as Added — and drops the
unchanged `shared` key; it is, in particular, not empty. -/
theorem c3_spec_diff_reports_all_differences :
    ((((ProllyTree.empty ⟨4, 64, 1, 4096, 0⟩).insert
        [115, 104, 97, 114, 101, 100] [118, 97, 108, 117, 101, 49]).insert
        [111, 110, 108, 121, 95, 105, 110, 95, 116, 114, 101, 101, 49]
        [118, 97, 108, 117, 101, 50]).insert
        [109, 111, 100, 105, 102, 105, 101, 100]
        [111, 114, 105, 103, 105, 110, 97, 108]).diff
      ((((ProllyTree.empty ⟨4, 64, 1, 4096, 0⟩).insert
        [115, 104, 97, 114, 101, 100] [118, 97, 108, 117, 101, 49]).insert
        [111, 110, 108, 121, 95, 105, 110, 95, 116, 114, 101, 101, 50]
        [118, 97, 108, 117, 101, 51]).insert
        [109, 111, 100, 105, 102, 105, 101, 100]
        [99, 104, 97, 110, 103, 101, 100])
    = [([109, 111, 100, 105, 102, 105, 101, 100],
          DiffOp.modified [111, 114, 105, 103, 105, 110, 97, 108]
            [99, 104, 97, 110, 103, 101, 100]),
       ([111, 110, 108, 121, 95, 105, 110, 95, 116, 114, 101, 101, 49],
          DiffOp.removed [118, 97, 108, 117, 101, 50]),
       ([111, 110, 108, 121, 95, 105, 110, 95, 116, 114, 101, 101, 50],
          DiffOp.added [118, 97, 108, 117, 101, 51])] := by
  decide

/-! ## The built tree carries exactly the canonical entries -/

theorem Node.myInduction (motive : Node → Prop)
    (hleaf : ∀ es, motive (.leaf es))
    (hinternal : ∀ cs, (∀ c ∈ cs, motive c) → motive (.internal cs)) :
    ∀ t, motive t := fun t =>
  match t with
  | .leaf es => hleaf es
  | .internal cs => hinternal cs fun c _ => Node.myInduction motive hleaf hinternal c
termination_by t => sizeOf t
decreasing_by
  have := List.sizeOf_lt_of_mem (by assumption : c ∈ cs)
  simp_wf
  omega

theorem entriesList_append (a b : List Node) :
    entriesList (a ++ b) = entriesList a ++ entriesList b := by
  induction a with
  | nil => rfl
  | cons c rest ih => rw [List.cons_append, entriesList, entriesList, ih, List.append_assoc]

theorem entriesList_flatten (L : List (List Node)) :
    entriesList L.flatten = (L.map entriesList).flatten := by
  induction L with
  | nil => rfl
  | cons c rest ih =>
    rw [List.flatten_cons, entriesList_append, ih, List.map_cons, List.flatten_cons]

theorem entriesList_map_leaf (L : List (List Entry)) :
    entriesList (L.map Node.leaf) = L.flatten := by
  induction L with
  | nil => rfl
  | cons es rest ih => rw [List.map_cons, entriesList, ih, List.flatten_cons, entriesNode]

theorem entriesList_map_internal (L : List (List Node)) :
    entriesList (L.map Node.internal) = entriesList L.flatten := by
  induction L with
  | nil => rfl
  | cons c rest ih =>
    rw [List.map_cons, entriesList, ih, entriesNode, List.flatten_cons, entriesList_append]

theorem chunkGo_flatten {α : Type} (cfg : TreeConfig) (digest : α → Nat) :
    ∀ (l cur : List α) (h : Nat),
    (chunkGo cfg digest cur h l).flatten = cur.reverse ++ l := by
  intro l
  induction l with
  | nil =>
    intro cur h
    rw [chunkGo]
    by_cases hc : cur.isEmpty
    · simp [hc, List.isEmpty_iff.mp hc]
    · simp [hc]
  | cons e rest ih =>
    intro cur h
    rw [chunkGo]
    by_cases hb : isBoundary cfg (e :: cur).length (rollStep cfg h (digest e))
    all_goals simp only [List.length_cons] at hb
    · simp [hb, ih]
    · simp [hb, ih]

theorem chunkSeq_flatten {α : Type} (cfg : TreeConfig) (digest : α → Nat) (l : List α) :
    (chunkSeq cfg digest l).flatten = l := by
  rw [chunkSeq, chunkGo_flatten]
  rfl

theorem entriesList_buildLevel (cfg : TreeConfig) (ns : List Node) :
    entriesList (buildLevel cfg ns) = entriesList ns := by
  rw [buildLevel, entriesList_map_internal, chunkSeq_flatten]

theorem entriesNode_buildLevels (cfg : TreeConfig) :
    ∀ (fuel : Nat) (ns : List Node),
    entriesNode (buildLevels cfg fuel ns) = entriesList ns := by
  intro fuel
  induction fuel with
  | zero =>
    intro ns
    rcases ns with _ | ⟨a, _ | ⟨b, t2⟩⟩
    · rfl
    · rw [buildLevels, entriesList, entriesList, List.append_nil]
    · rw [buildLevels, entriesNode] <;> simp
  | succ f ih =>
    intro ns
    rcases ns with _ | ⟨a, _ | ⟨b, t2⟩⟩
    · rfl
    · rw [buildLevels, entriesList, entriesList, List.append_nil]
    · rw [buildLevels, ih, entriesList_buildLevel] <;> simp

theorem entriesNode_buildTree (cfg : TreeConfig) (l : List Entry) :
    entriesNode (buildTree cfg l) = l := by
  rw [buildTree, entriesNode_buildLevels, entriesList_map_leaf, chunkSeq_flatten]

/-! ## Soundness of Merkle proof generation and verification -/

theorem nodeBeq_iff : ∀ a b : Node, nodeBeq a b = true ↔ a = b := by
  intro a
  induction a using Node.myInduction with
  | hleaf es =>
    intro b
    cases b with
    | leaf es' => simp [nodeBeq]
    | internal cs => simp [nodeBeq]
  | hinternal cs ih =>
    intro b
    have hlist : ∀ (l : List Node), (∀ c ∈ l, ∀ b, nodeBeq c b = true ↔ c = b) →
        ∀ l', nodeListBeq l l' = true ↔ l = l' := by
      intro l
      induction l with
      | nil =>
        intro _ l'
        cases l' <;> simp [nodeListBeq]
      | cons c rest ihl =>
        intro hmem l'
        cases l' with
        | nil => simp [nodeListBeq]
        | cons c' rest' =>
          rw [nodeListBeq]
          simp only [Bool.and_eq_true, List.cons.injEq]
          rw [hmem c (by simp) c', ihl (fun x hx b => hmem x (by simp [hx]) b) rest']
    cases b with
    | leaf es => simp [nodeBeq]
    | internal cs' =>
      rw [nodeBeq]
      simp only [Node.internal.injEq]
      exact hlist cs ih cs'

theorem splitAtKey_eq (k : Key) : ∀ (es b : List Entry) (v : Value) (a : List Entry),
    splitAtKey k es = some (b, v, a) → es = b ++ (k, v) :: a := by
  intro es
  induction es with
  | nil => intro b v a h; simp [splitAtKey] at h
  | cons hd tl ih =>
    intro b v a h
    obtain ⟨k', v'⟩ := hd
    by_cases hk : k = k'
    · subst hk
      simp [splitAtKey] at h
      rw [h.1, h.2.1, h.2.2]
      rfl
    · simp only [splitAtKey, if_neg hk, Option.map_eq_some'] at h
      obtain ⟨⟨b0, v0, a0⟩, hsp, hmk⟩ := h
      simp only [Prod.mk.injEq] at hmk
      rw [← hmk.1, ← hmk.2.1, ← hmk.2.2, ih b0 v0 a0 hsp]
      rfl

theorem splitAtKey_isSome (k : Key) : ∀ es : List Entry,
    k ∈ es.map Prod.fst → (splitAtKey k es).isSome := by
  intro es
  induction es with
  | nil => intro h; simp at h
  | cons hd tl ih =>
    intro h
    obtain ⟨k', v'⟩ := hd
    by_cases hk : k = k'
    · simp [splitAtKey, hk]
    · simp only [List.map_cons, List.mem_cons] at h
      rcases h with h | h
      · exact absurd h hk
      · simp only [splitAtKey, if_neg hk]
        obtain ⟨x, hx⟩ := Option.isSome_iff_exists.mp (ih h)
        simp [hx]

theorem mem_entriesList_of_mem (e : Entry) : ∀ (cs : List Node) (c : Node),
    c ∈ cs → e ∈ entriesNode c → e ∈ entriesList cs := by
  intro cs
  induction cs with
  | nil => intro c h; simp at h
  | cons c0 rest ih =>
    intro c hc he
    rw [entriesList, List.mem_append]
    rcases List.mem_cons.mp hc with hc | hc
    · exact Or.inl (hc ▸ he)
    · exact Or.inr (ih c hc he)

theorem mem_entriesNode_rebuildSteps (e : Entry) : ∀ (steps : List ProofStep) (c : Node),
    e ∈ entriesNode c → e ∈ entriesNode (rebuildSteps steps c) := by
  intro steps
  induction steps with
  | nil => intro c h; exact h
  | cons s rest ih =>
    intro c h
    rw [rebuildSteps, entriesNode]
    exact mem_entriesList_of_mem e _ (rebuildSteps rest c) (by simp) (ih c h)

theorem lookupKV_eq_of_mem_nodup (k : Key) (v : Value) : ∀ l : List Entry,
    (k, v) ∈ l → (l.map Prod.fst).Nodup → lookupKV k l = some v := by
  intro l
  induction l with
  | nil => intro hm _; simp at hm
  | cons hd tl ih =>
    intro hm hnd
    obtain ⟨k0, v0⟩ := hd
    rw [List.map_cons] at hnd
    obtain ⟨hk0, hnd'⟩ := List.nodup_cons.mp hnd
    rcases List.mem_cons.mp hm with hme | hme
    · simp only [Prod.mk.injEq] at hme
      simp [lookupKV, hme.1, hme.2]
    · have hk : k ≠ k0 := fun he =>
        hk0 (he ▸ List.mem_map.mpr ⟨(k, v), hme, rfl⟩)
      simp [lookupKV, hk, ih hme hnd']

theorem genProofChildren_sound (k : Key) :
    ∀ (l before : List Node) (p : MerkleProof),
    (∀ c ∈ l, ∀ p0, genProofNode c k = some p0 →
      ∃ v, (k, v) ∈ entriesNode c ∧ reconstructRoot k v p0 = c) →
    genProofChildren before l k = some p →
    ∃ v, (k, v) ∈ entriesList l
      ∧ reconstructRoot k v p = .internal (before.reverse ++ l) := by
  intro l
  induction l with
  | nil =>
    intro before p _ h
    rw [genProofChildren] at h
    exact absurd h (by simp)
  | cons c rest ih =>
    intro before p hmem h
    rw [genProofChildren] at h
    split at h
    · rename_i p0 hg
      simp only [Option.some.injEq] at h
      obtain ⟨v, hv, hrec⟩ := hmem c (by simp) p0 hg
      refine ⟨v, by rw [entriesList]; exact List.mem_append_left _ hv, ?_⟩
      rw [reconstructRoot] at hrec
      rw [← h, reconstructRoot]
      simp only [rebuildSteps, hrec]
    · rename_i hg
      obtain ⟨v, hv, hrec⟩ := ih (c :: before) p (fun x hx => hmem x (by simp [hx])) h
      refine ⟨v, by rw [entriesList]; exact List.mem_append_right _ hv, ?_⟩
      rw [hrec, List.reverse_cons, List.append_assoc]
      rfl

theorem genProofNode_sound (k : Key) : ∀ (t : Node) (p : MerkleProof),
    genProofNode t k = some p →
    ∃ v, (k, v) ∈ entriesNode t ∧ reconstructRoot k v p = t := by
  intro t
  induction t using Node.myInduction with
  | hleaf es =>
    intro p h
    rw [genProofNode] at h
    split at h
    · rename_i b v0 a hsp
      simp only [Option.some.injEq] at h
      refine ⟨v0, ?_, ?_⟩
      · rw [entriesNode, splitAtKey_eq k es b v0 a hsp]
        simp
      · rw [← h, reconstructRoot]
        simp only [rebuildSteps]
        rw [splitAtKey_eq k es b v0 a hsp]
    · exact absurd h (by simp)
  | hinternal cs ih =>
    intro p h
    rw [genProofNode] at h
    obtain ⟨v, hv, hrec⟩ := genProofChildren_sound k cs [] p ih h
    exact ⟨v, by rw [entriesNode]; exact hv, by rw [hrec]; rfl⟩

theorem genProofChildren_isSome (k : Key) :
    ∀ (l before : List Node),
    (∀ c ∈ l, k ∈ (entriesNode c).map Prod.fst → (genProofNode c k).isSome) →
    k ∈ (entriesList l).map Prod.fst → (genProofChildren before l k).isSome := by
  intro l
  induction l with
  | nil =>
    intro before _ h
    rw [entriesList] at h
    simp at h
  | cons c rest ih =>
    intro before hmem h
    cases hg : genProofNode c k with
    | some p0 => simp [genProofChildren, hg]
    | none =>
      rw [entriesList, List.map_append, List.mem_append] at h
      rcases h with h | h
      · have := hmem c (by simp) h
        rw [hg] at this
        simp at this
      · have := ih (c :: before) (fun x hx hk => hmem x (by simp [hx]) hk) h
        simpa [genProofChildren, hg] using this

theorem genProofNode_isSome (k : Key) : ∀ t : Node,
    k ∈ (entriesNode t).map Prod.fst → (genProofNode t k).isSome := by
  intro t
  induction t using Node.myInduction with
  | hleaf es =>
    intro h
    rw [entriesNode] at h
    have hsp := splitAtKey_isSome k es h
    obtain ⟨⟨b, v0, a⟩, hx⟩ := Option.isSome_iff_exists.mp hsp
    simp [genProofNode, hx]
  | hinternal cs ih =>
    intro h
    rw [genProofNode]
    rw [entriesNode] at h
    exact genProofChildren_isSome k cs [] ih h

theorem keys_mem_entriesList (k : Key) (cs : List Node) (c : Node) (hc : c ∈ cs)
    (hk : k ∈ (entriesNode c).map Prod.fst) :
    k ∈ (entriesList cs).map Prod.fst := by
  obtain ⟨e, he, hke⟩ := List.mem_map.mp hk
  exact List.mem_map.mpr ⟨e, mem_entriesList_of_mem e cs c hc he, hke⟩

theorem position_unique (k : Key) :
    ∀ (b1 b2 a1 a2 : List Node) (X1 X2 : Node),
    b1 ++ X1 :: a1 = b2 ++ X2 :: a2 →
    k ∈ (entriesNode X1).map Prod.fst →
    k ∈ (entriesNode X2).map Prod.fst →
    ((entriesList (b1 ++ X1 :: a1)).map Prod.fst).Nodup →
    b1 = b2 ∧ X1 = X2 ∧ a1 = a2 := by
  intro b1
  induction b1 with
  | nil =>
    intro b2 a1 a2 X1 X2 heq hk1 hk2 hnd
    cases b2 with
    | nil =>
      rw [List.nil_append, List.nil_append] at heq
      injection heq with h1 h2
      exact ⟨rfl, h1, h2⟩
    | cons y b2' =>
      exfalso
      rw [List.nil_append, List.cons_append] at heq
      injection heq with hX1 ha1
      rw [List.nil_append, entriesList, List.map_append] at hnd
      have hdisj := List.disjoint_of_nodup_append hnd
      apply hdisj hk1
      have hX2mem : X2 ∈ a1 := by rw [ha1]; simp
      exact keys_mem_entriesList k a1 X2 hX2mem hk2
  | cons y b1' ihb =>
    intro b2 a1 a2 X1 X2 heq hk1 hk2 hnd
    cases b2 with
    | nil =>
      exfalso
      rw [List.nil_append, List.cons_append] at heq
      injection heq with hX2 ha2
      rw [List.cons_append, entriesList, List.map_append] at hnd
      have hdisj := List.disjoint_of_nodup_append hnd
      apply hdisj (hX2 ▸ hk2)
      have hX1mem : X1 ∈ b1' ++ X1 :: a1 := by simp
      exact keys_mem_entriesList k _ X1 hX1mem hk1
    | cons y2 b2' =>
      rw [List.cons_append, List.cons_append] at heq
      injection heq with hy htl
      subst hy
      rw [List.cons_append, entriesList, List.map_append] at hnd
      have ht := (List.nodup_append.mp hnd).2.1
      obtain ⟨hb, hx, ha⟩ := ihb b2' a1 a2 X1 X2 htl hk1 hk2 ht
      exact ⟨by rw [hb], hx, ha⟩

theorem keys_rebuildSteps (k : Key) (steps : List ProofStep) (es : List Entry)
    (h : k ∈ es.map Prod.fst) :
    k ∈ (entriesNode (rebuildSteps steps (.leaf es))).map Prod.fst := by
  obtain ⟨e, he, hke⟩ := List.mem_map.mp h
  have : e ∈ entriesNode (rebuildSteps steps (.leaf es)) :=
    mem_entriesNode_rebuildSteps e steps (.leaf es) (by rw [entriesNode]; exact he)
  exact List.mem_map.mpr ⟨e, this, hke⟩

theorem rebuild_unique (k : Key) :
    ∀ (steps1 steps2 : List ProofStep) (es1 es2 : List Entry),
    rebuildSteps steps1 (.leaf es1) = rebuildSteps steps2 (.leaf es2) →
    k ∈ es1.map Prod.fst → k ∈ es2.map Prod.fst →
    ((entriesNode (rebuildSteps steps1 (.leaf es1))).map Prod.fst).Nodup →
    steps1 = steps2 ∧ es1 = es2 := by
  intro steps1
  induction steps1 with
  | nil =>
    intro steps2 es1 es2 heq hk1 hk2 _
    cases steps2 with
    | nil =>
      rw [rebuildSteps, rebuildSteps] at heq
      injection heq with h
      exact ⟨rfl, h⟩
    | cons s2 r2 =>
      rw [rebuildSteps, rebuildSteps] at heq
      exact absurd heq (by simp)
  | cons s1 r1 ih =>
    intro steps2 es1 es2 heq hk1 hk2 hnd
    cases steps2 with
    | nil =>
      rw [rebuildSteps, rebuildSteps] at heq
      exact absurd heq (by simp)
    | cons s2 r2 =>
      rw [rebuildSteps, rebuildSteps] at heq
      injection heq with hl
      rw [rebuildSteps, entriesNode] at hnd
      have hk1' := keys_rebuildSteps k r1 es1 hk1
      have hk2' := keys_rebuildSteps k r2 es2 hk2
      obtain ⟨hb, hx, ha⟩ := position_unique k s1.before s2.before s1.after s2.after
        _ _ hl hk1' hk2' hnd
      have hndX : ((entriesNode (rebuildSteps r1 (.leaf es1))).map Prod.fst).Nodup := by
        rw [entriesList_append, entriesList, List.map_append, List.map_append] at hnd
        exact (List.nodup_append.mp ((List.nodup_append.mp hnd).2.1)).1
      obtain ⟨hr, hes⟩ := ih r2 es1 es2 hx hk1 hk2 hndX
      refine ⟨?_, hes⟩
      obtain ⟨sb1, sa1⟩ := s1
      obtain ⟨sb2, sa2⟩ := s2
      simp only at hb ha
      rw [hb, ha, hr]

theorem append_cons_key_unique (k : Key) (v : Value) :
    ∀ (l1 l1' l2 l2' : List Entry),
    l1 ++ (k, v) :: l2 = l1' ++ (k, v) :: l2' →
    ((l1 ++ (k, v) :: l2).map Prod.fst).Nodup →
    l1 = l1' ∧ l2 = l2' := by
  intro l1
  induction l1 with
  | nil =>
    intro l1' l2 l2' heq hnd
    cases l1' with
    | nil =>
      rw [List.nil_append, List.nil_append] at heq
      injection heq with _ h
      exact ⟨rfl, h⟩
    | cons y l1'' =>
      exfalso
      rw [List.nil_append, List.cons_append] at heq
      injection heq with hy htl
      rw [List.nil_append, List.map_cons] at hnd
      apply (List.nodup_cons.mp hnd).1
      rw [htl]
      exact List.mem_map.mpr ⟨(k, v), by simp, rfl⟩
  | cons y l1'' ih =>
    intro l1' l2 l2' heq hnd
    cases l1' with
    | nil =>
      exfalso
      rw [List.nil_append, List.cons_append] at heq
      injection heq with hy htl
      rw [List.cons_append, List.map_cons] at hnd
      apply (List.nodup_cons.mp hnd).1
      rw [hy]
      exact List.mem_map.mpr ⟨(k, v), by simp, rfl⟩
    | cons y2 l1''' =>
      rw [List.cons_append, List.cons_append] at heq
      injection heq with hy htl
      subst hy
      rw [List.cons_append, List.map_cons] at hnd
      obtain ⟨hb, ha⟩ := ih l1''' l2 l2' htl (List.nodup_cons.mp hnd).2
      exact ⟨by rw [hb], ha⟩

theorem leaf_keys_nodup : ∀ (steps : List ProofStep) (es : List Entry),
    ((entriesNode (rebuildSteps steps (.leaf es))).map Prod.fst).Nodup →
    (es.map Prod.fst).Nodup := by
  intro steps
  induction steps with
  | nil =>
    intro es h
    rw [rebuildSteps, entriesNode] at h
    exact h
  | cons s rest ih =>
    intro es h
    apply ih
    rw [rebuildSteps, entriesNode, entriesList_append, entriesList,
      List.map_append, List.map_append] at h
    exact (List.nodup_append.mp ((List.nodup_append.mp h).2.1)).1

/-- C2: for every pair present in a tree with duplicate-free keys,
`verify_proof(generate_proof(key), key, value)` is true, and verification
succeeds only for exactly that generated proof and stored value: any other
value — and any tampered (bit-flipped) proof, i.e. any proof object other
than the generated one — is rejected. -/
theorem c2_merkle_proof_complete (t : ProllyTree) (k : Key) (v : Value)
    (hnd : (t.entries.map Prod.fst).Nodup) (hfind : t.find k = some v) :
    ∃ p, t.generate_proof k = some p
      ∧ ∀ (p' : MerkleProof) (v' : Value),
          (t.verify_proof p' k v' = true ↔ (p' = p ∧ v' = v)) := by
  have hent : entriesNode t.get_root_hash = t.entries := by
    rw [ProllyTree.get_root_hash, entriesNode_buildTree]
  have hknd : ((entriesNode t.get_root_hash).map Prod.fst).Nodup := by
    rw [hent]
    exact hnd
  have hlook : lookupKV k (entriesNode t.get_root_hash) = some v := by
    rw [hent]
    exact hfind
  have hkmem : k ∈ (entriesNode t.get_root_hash).map Prod.fst :=
    mem_keys_of_lookupKV _ _ _ hlook
  obtain ⟨p, hgen⟩ := Option.isSome_iff_exists.mp (genProofNode_isSome k _ hkmem)
  obtain ⟨v0, hm0, hrec0⟩ := genProofNode_sound k _ p hgen
  have hv0 : v0 = v := by
    have hl0 := lookupKV_eq_of_mem_nodup k v0 _ hm0 hknd
    rw [hlook] at hl0
    exact (Option.some.inj hl0).symm
  subst hv0
  refine ⟨p, hgen, ?_⟩
  intro p' v'
  rw [ProllyTree.verify_proof]
  constructor
  · intro hver
    have heq : reconstructRoot k v' p' = t.get_root_hash := (nodeBeq_iff _ _).mp hver
    have hm' : (k, v') ∈ entriesNode t.get_root_hash := by
      rw [← heq, reconstructRoot]
      apply mem_entriesNode_rebuildSteps
      rw [entriesNode]
      simp
    have hv' : v' = v0 := by
      have hl' := lookupKV_eq_of_mem_nodup k v' _ hm' hknd
      rw [hlook] at hl'
      exact (Option.some.inj hl').symm
    subst hv'
    refine ⟨?_, rfl⟩
    have hequ : rebuildSteps p'.steps (.leaf (p'.leafBefore ++ (k, v') :: p'.leafAfter))
        = rebuildSteps p.steps (.leaf (p.leafBefore ++ (k, v') :: p.leafAfter)) :=
      heq.trans hrec0.symm
    have hndr : ((entriesNode (rebuildSteps p'.steps
        (.leaf (p'.leafBefore ++ (k, v') :: p'.leafAfter)))).map Prod.fst).Nodup := by
      have : reconstructRoot k v' p' = rebuildSteps p'.steps
          (.leaf (p'.leafBefore ++ (k, v') :: p'.leafAfter)) := rfl
      rw [← this, heq]
      exact hknd
    obtain ⟨hst, hes⟩ := rebuild_unique k p'.steps p.steps _ _ hequ
      (by simp) (by simp) hndr
    obtain ⟨hlb, hla⟩ := append_cons_key_unique k v' _ _ _ _ hes
      (leaf_keys_nodup p'.steps _ hndr)
    calc p' = ⟨p'.leafBefore, p'.leafAfter, p'.steps⟩ := rfl
      _ = ⟨p.leafBefore, p.leafAfter, p.steps⟩ := by rw [hlb, hla, hst]
      _ = p := rfl
  · rintro ⟨hp', hv'⟩
    subst hp'
    subst hv'
    exact (nodeBeq_iff _ _).mpr hrec0

/-- Witness for C2: the concrete two-entry tree, key `[1]` with stored value
`[10]`. -/
theorem c2_witness :
    ∃ p, (((ProllyTree.empty ⟨4, 64, 1, 4096, 0⟩).insert [1] [10]).insert
          [2] [20]).generate_proof [1] = some p
      ∧ ∀ (p' : MerkleProof) (v' : Value),
          ((((ProllyTree.empty ⟨4, 64, 1, 4096, 0⟩).insert [1] [10]).insert
              [2] [20]).verify_proof p' [1] v' = true ↔ (p' = p ∧ v' = [10])) :=
  c2_merkle_proof_complete _ [1] [10] (by decide) (by decide)
